import Mathlib

/-!
# Verification of `wsd_utils.py` (tokenization and vocabulary pipeline)

A shallow embedding of the text-preprocessing utilities of the repository:
the reversible tokenizer (`basic_tokenizer` / `basic_detokenizer`), the
whitespace tokenizer (`space_tokenizer`), vocabulary construction
(`create_vocabulary`), vocabulary loading (`initialize_vocabulary`),
sentence encoding (`sentence_to_token_ids`) and the bucketed dataset
reader (`read_data`).

Python strings are modelled as `List Char`, Python dicts as association
lists with explicit lookup functions matching how each dict is built and
read in the source.  Fallible functions return `Except`.
-/

namespace Wsd

/-! ## Special vocabulary symbols (source lines 27–38) -/

def _PAD : List Char := "_PAD".toList
def _HELDOUT : List Char := "_HELDOUT".toList
def _EOS : List Char := "_EOS".toList
def _UNK : List Char := "_CHAR_UNK".toList
def _SPACE : List Char := "_SPACE".toList
def _START_VOCAB : List (List Char) := [_PAD, _HELDOUT, _EOS, _UNK]

def PAD_ID : Nat := 0
def HELDOUT_ID : Nat := 1
def EOS_ID : Nat := 2
def UNK_ID : Nat := 3

/-! ## The punctuation set (source lines 41–47)

`_PUNCTUATION = "][.,!?\"':;%$#@&*+}{|><=/^~)(_`,0123456789" + chr(226) +
chr(153) + chr(128) + "-"`.  Written below by character codes so that every
character of the Python string literal appears exactly once per occurrence. -/

def _CHAR_MARKER : List Char := "_CHAR_".toList

def _PUNCTUATION : List Char :=
  [Char.ofNat 93,  -- ]
   Char.ofNat 91,  -- [
   Char.ofNat 46,  -- .
   Char.ofNat 44,  -- ,
   Char.ofNat 33,  -- !
   Char.ofNat 63,  -- ?
   Char.ofNat 34,  -- "
   Char.ofNat 39,  -- apostrophe
   Char.ofNat 58,  -- :
   Char.ofNat 59,  -- ;
   Char.ofNat 37,  -- %
   Char.ofNat 36,  -- $
   Char.ofNat 35,  -- #
   Char.ofNat 64,  -- @
   Char.ofNat 38,  -- &
   Char.ofNat 42,  -- *
   Char.ofNat 43,  -- +
   Char.ofNat 125, -- closing brace
   Char.ofNat 123, -- opening brace
   Char.ofNat 124, -- |
   Char.ofNat 62,  -- >
   Char.ofNat 60,  -- <
   Char.ofNat 61,  -- =
   Char.ofNat 47,  -- /
   Char.ofNat 94,  -- ^
   Char.ofNat 126, -- ~
   Char.ofNat 41,  -- )
   Char.ofNat 40,  -- (
   Char.ofNat 95,  -- _
   Char.ofNat 96,  -- backquote
   Char.ofNat 44,  -- , (repeated in the source string)
   Char.ofNat 48, Char.ofNat 49, Char.ofNat 50, Char.ofNat 51, Char.ofNat 52,
   Char.ofNat 53, Char.ofNat 54, Char.ofNat 55, Char.ofNat 56, Char.ofNat 57,
   Char.ofNat 226, Char.ofNat 153, Char.ofNat 128,  -- _SPEC_CHARS
   Char.ofNat 45]  -- -

/-- Membership of a single character in `_PUNCTUATION` (Python `t in _PUNCTUATION`
for a length-1 string `t`). -/
def isPunct (c : Char) : Bool := _PUNCTUATION.contains c

/-- The characters Python `str.split()` (no argument) splits on. -/
def isPySpace (c : Char) : Bool :=
  c = Char.ofNat 32 || c = Char.ofNat 9 || c = Char.ofNat 10 ||
  c = Char.ofNat 13 || c = Char.ofNat 11 || c = Char.ofNat 12

/-! ## Whitespace splitting: `sentence.strip().split()` -/

/-- Auxiliary for `splitWS`: `acc` holds the reversed characters of the word
being read. -/
def splitWSAux : List Char → List Char → List (List Char)
  | acc, [] => if acc = [] then [] else [acc.reverse]
  | acc, c :: cs =>
    if isPySpace c then
      if acc = [] then splitWSAux [] cs else acc.reverse :: splitWSAux [] cs
    else splitWSAux (c :: acc) cs

/-- Python `s.strip().split()`: the maximal nonempty runs of non-whitespace
characters, in order. -/
def splitWS (s : List Char) : List (List Char) := splitWSAux [] s

/-! ## `re.split(_WORD_SPLIT, fragment)` with empties removed

`_WORD_SPLIT` is `([` + `_PUNCTUATION` + `])`: the split keeps every
punctuation character as its own token; filtering the empty strings leaves
exactly the punctuation characters as singleton tokens and the maximal
nonempty runs of non-punctuation characters. -/

def wordSplitAux : List Char → List Char → List (List Char)
  | acc, [] => if acc = [] then [] else [acc.reverse]
  | acc, c :: cs =>
    if isPunct c then
      if acc = [] then [c] :: wordSplitAux [] cs
      else acc.reverse :: [c] :: wordSplitAux [] cs
    else wordSplitAux (c :: acc) cs

def wordSplit (fragment : List Char) : List (List Char) := wordSplitAux [] fragment

/-! ## The basic tokenizer (source lines 140–191), non-legacy mode
(`old_style = False` at source line 165) -/

/-- Source `is_char`: the token is longer than the marker and starts with it. -/
def is_char (token : List Char) : Bool :=
  decide (_CHAR_MARKER.length < token.length) &&
    token.take _CHAR_MARKER.length == _CHAR_MARKER

/-- The retagging step: a token of length 1 that is a punctuation character
becomes `_CHAR_MARKER ++` the character (source lines 177–179). -/
def tagTok (t : List Char) : List Char :=
  match t with
  | [c] => if isPunct c then _CHAR_MARKER ++ [c] else [c]
  | _ => t

/-- `first_is_char` of the fragment's raw token list (source lines 176–181):
true when the first token is a punctuation singleton. -/
def firstIsChar (ts : List (List Char)) : Bool :=
  match ts with
  | [c] :: _ => isPunct c
  | _ => false

/-- The `spaced_tokens` loop (source lines 184–189): between consecutive
tokens, insert `_SPACE` when the left one is not `_SPACE` and neither side
is a character token. -/
def spaceTokens : List (List Char) → List (List Char)
  | [] => []
  | [t] => [t]
  | t :: t2 :: rest =>
    if t ≠ _SPACE ∧ is_char t = false ∧ is_char t2 = false then
      t :: _SPACE :: spaceTokens (t2 :: rest)
    else t :: spaceTokens (t2 :: rest)

/-- The body of the per-fragment loop of `basic_tokenizer`
(source lines 174–190): split the fragment, retag punctuation singletons,
prepend `_SPACE` when the previous emitted token requires it, insert
`_SPACE` markers, and append to the accumulated `words`. -/
def processFragment (words : List (List Char)) (fragment : List Char) :
    List (List Char) :=
  let tokens := wordSplit fragment
  let fic := firstIsChar tokens
  let tagged := tokens.map tagTok
  let tokens2 :=
    if words ≠ [] ∧ words.getLastD [] ≠ _SPACE ∧
        (fic = true ∨ is_char (words.getLastD []) = true) then
      _SPACE :: tagged
    else tagged
  words ++ spaceTokens tokens2

/-- `basic_tokenizer` in the default (non-legacy) mode. -/
def basic_tokenizer (sentence : List Char) : List (List Char) :=
  (splitWS sentence).foldl processFragment []

/-- `space_tokenizer`: `sentence.strip().split()`. -/
def space_tokenizer (sentence : List Char) : List (List Char) :=
  splitWS sentence

/-! ## The detokenizer (source lines 146–163) -/

/-- The loop of `basic_detokenizer`; the `Bool` is `previous_nospace`. -/
def detokGo : Bool → List (List Char) → List Char
  | _, [] => []
  | previous_nospace, t :: ts =>
    if is_char t then t.drop _CHAR_MARKER.length ++ detokGo true ts
    else if t = _SPACE then Char.ofNat 32 :: detokGo true ts
    else if previous_nospace then t ++ detokGo false ts
    else Char.ofNat 32 :: (t ++ detokGo false ts)

def basic_detokenizer (tokens : List (List Char)) : List Char :=
  detokGo true tokens

/-! ## Whitespace normalization: Python's idiom `" ".join(s.split())`
(used on every corpus line at source line 222) -/

def joinSpace : List (List Char) → List Char
  | [] => []
  | [w] => w
  | w :: w2 :: ws => w ++ Char.ofNat 32 :: joinSpace (w2 :: ws)

def normalize_whitespace (s : List Char) : List Char := joinSpace (splitWS s)

/-! ## Token-kind predicates used by the proofs -/

/-- An ordinary word token: nonempty, containing no punctuation character. -/
def isWordTok (t : List Char) : Prop := t ≠ [] ∧ ∀ c ∈ t, isPunct c = false

/-- A raw punctuation singleton, as produced by `wordSplit`. -/
def isPunctTok (t : List Char) : Prop := ∃ c, isPunct c = true ∧ t = [c]

/-- A raw token of `wordSplit`. -/
def rawTok (t : List Char) : Prop := isWordTok t ∨ isPunctTok t

/-- A tagged character token: the marker followed by one punctuation character. -/
def isCharTok (t : List Char) : Prop :=
  ∃ c, isPunct c = true ∧ t = _CHAR_MARKER ++ [c]

/-- A tagged token: an ordinary word or a character token. -/
def TTok (t : List Char) : Prop := isWordTok t ∨ isCharTok t

/-- No two adjacent ordinary word tokens. -/
def noWW (a b : List Char) : Prop := ¬(isWordTok a ∧ isWordTok b)

/-- A well-formed tagged fragment token list. -/
def TGood (ts : List (List Char)) : Prop :=
  (∀ t ∈ ts, TTok t) ∧ ts.Chain' noWW

/-- No two adjacent `_SPACE` tokens. -/
def noSS (a b : List Char) : Prop := ¬(a = _SPACE ∧ b = _SPACE)

/-- The invariant of the accumulated `words` list of `basic_tokenizer`:
every token is a word, character or `_SPACE` token, no two `_SPACE` tokens
are adjacent, the list does not start with `_SPACE`, and when nonempty it
ends in a word or character token. -/
def InvW (W : List (List Char)) : Prop :=
  (∀ t ∈ W, TTok t ∨ t = _SPACE) ∧ W.Chain' noSS ∧
    (∀ h ∈ W.head?, h ≠ _SPACE) ∧
    (W = [] ∨ ∃ t, W.getLast? = some t ∧ TTok t)

/-- The tagged token list contributed by one fragment before `_SPACE`
adjustment. -/
def fragTokens (f : List Char) : List (List Char) := (wordSplit f).map tagTok

/-- The `previous_nospace` value after the detokenizer consumed `ts`. -/
def stateAfter : Bool → List (List Char) → Bool
  | b, [] => b
  | _, t :: ts =>
    stateAfter (if is_char t then true else if t = _SPACE then true else false) ts

/-! ## Vocabulary construction (source lines 196–247) -/

/-- `re.sub(_DIGIT_RE, "0", w)`: replace every digit by the zero character. -/
def normDigits (w : List Char) : List Char :=
  w.map (fun c => if c.isDigit then Char.ofNat 48 else c)

/-- Lookup in an association list modelling a Python dict (keys are unique in
every dict built below, so first match is the dict entry). -/
def dget : List (List Char × Nat) → List Char → Option Nat
  | [], _ => none
  | (k, v) :: rest, w => if k = w then some v else dget rest w

/-- The frequency-count update `vocab[word] += 1` / `vocab[word] = 1`
(source lines 230–233), keeping keys in first-insertion order. -/
def bump : List (List Char × Nat) → List Char → List (List Char × Nat)
  | [], w => [(w, 1)]
  | (k, n) :: rest, w =>
    if k = w then (k, n + 1) :: rest else (k, n) :: bump rest w

/-- The (possibly digit-normalized) tokens of one corpus line: the line is
whitespace-collapsed (`" ".join(line_in.split())`, source line 222), tokenized,
and each token digit-normalized when requested (source line 229). -/
def line_words (tokenizer : List Char → List (List Char))
    (normalize_digits : Bool) (line : List Char) : List (List Char) :=
  (tokenizer (normalize_whitespace line)).map
    (fun w => if normalize_digits then normDigits w else w)

/-- The frequency dict accumulated over the whole corpus
(source lines 218–233). -/
def vocab_counts (tokenizer : List Char → List (List Char))
    (normalize_digits : Bool) (lines : List (List Char)) :
    List (List Char × Nat) :=
  lines.foldl
    (fun d line => (line_words tokenizer normalize_digits line).foldl bump d) []

/-- The full processed token stream of the corpus, in reading order. -/
def all_words (tokenizer : List Char → List (List Char))
    (normalize_digits : Bool) (lines : List (List Char)) : List (List Char) :=
  (lines.map (line_words tokenizer normalize_digits)).flatten

/-- The distinct members of a word stream in first-occurrence order, those in
`seen` omitted. -/
def dedup_first (seen : List (List Char)) : List (List Char) → List (List Char)
  | [] => []
  | w :: ws =>
    if w ∈ seen then dedup_first seen ws else w :: dedup_first (seen ++ [w]) ws

/-- Stable insertion into a count-descending list: the new entry goes in front
of the first entry whose count is `≤` its own. -/
def insert_desc (p : List Char × Nat) :
    List (List Char × Nat) → List (List Char × Nat)
  | [] => [p]
  | q :: rest => if q.2 ≤ p.2 then p :: q :: rest else q :: insert_desc p rest

/-- `sorted(vocab, key=vocab.get, reverse=True)` (source line 235): a stable
sort into count-descending order (Python's sort is stable, and `reverse=True`
keeps equal-count entries in their original relative order); entries are
sorted together with their counts and projected to keys afterwards. -/
def sort_desc : List (List Char × Nat) → List (List Char × Nat)
  | [] => []
  | p :: rest => insert_desc p (sort_desc rest)

/-- `create_vocabulary` (source lines 196–247), returning the token list that
is written one token per line: the reserved symbols, then the corpus tokens in
count-descending order, truncated to `max_vocabulary_size` entries when that
argument is truthy (`if max_vocabulary_size and len(vocab_list) >
max_vocabulary_size`, source line 238) and the list is longer. -/
def create_vocabulary (lines : List (List Char))
    (tokenizer : List Char → List (List Char))
    (max_vocabulary_size : Option Nat) (normalize_digits : Bool) :
    List (List Char) :=
  let sorted_vocab :=
    (sort_desc (vocab_counts tokenizer normalize_digits lines)).map Prod.fst
  let vocab_list := _START_VOCAB ++ sorted_vocab
  match max_vocabulary_size with
  | some K => if K ≠ 0 ∧ K < vocab_list.length then vocab_list.take K else vocab_list
  | none => vocab_list

/-! ## Vocabulary loading (source lines 249–276) -/

/-- Python `line.strip()`: drop leading and trailing whitespace. -/
def strip (s : List Char) : List Char :=
  ((s.dropWhile isPySpace).reverse.dropWhile isPySpace).reverse

/-- One Python-dict update `d[k] = v`: overwrite the entry when the key is
present, append it otherwise. -/
def dict_update (d : List (List Char × Nat)) (k : List Char) (v : Nat) :
    List (List Char × Nat) :=
  if (dget d k).isSome then d.map (fun p => if p.1 = k then (k, v) else p)
  else d ++ [(k, v)]

/-- `dict(pairs)`: fold the updates left to right (a later pair with the same
key overwrites an earlier one). -/
def dict_of (ps : List (List Char × Nat)) : List (List Char × Nat) :=
  ps.foldl (fun d p => dict_update d p.1 p.2) []

/-- `initialize_vocabulary` (source lines 249–276).  The file argument is
`none` when `vocabulary_path` does not exist, in which case the function
raises; otherwise it holds the file's lines.  The lines are stripped in order,
the forward dict is `dict([(x, y) for (y, x) in enumerate(rev_vocab)])`, and
the reversed vocabulary is the stripped line list itself. -/
def initialize_vocabulary (file : Option (List (List Char))) :
    Except (List Char) (List (List Char × Nat) × List (List Char)) :=
  match file with
  | some lines =>
    let rev_vocab := lines.map strip
    Except.ok (dict_of (rev_vocab.enum.map (fun p => (p.2, p.1))), rev_vocab)
  | none => Except.error ("Vocabulary file not found.".toList)

/-! ## Sentence encoding (source lines 278–305) -/

/-- `sentence_to_token_ids`: tokenize, optionally digit-normalize each token,
look each token up, and emit `UNK_ID` for a token absent from the
vocabulary. -/
def sentence_to_token_ids (sentence : List Char)
    (vocabulary : List (List Char × Nat))
    (tokenizer : List Char → List (List Char)) (normalize_digits : Bool) :
    List Nat :=
  (tokenizer sentence).map (fun w =>
    let w' := if normalize_digits then normDigits w else w
    match dget vocabulary w' with
    | some id => id
    | none => UNK_ID)

/-! ## The bucketed dataset reader (source lines 63–106) -/

/-- `read_data`.  With `max_size = 1` the guard `if max_size != 1` skips the
reading loop and the empty bucket lists are returned; on an empty file the
`while` loop never runs and the same empty lists are returned.  Otherwise the
first loop iteration evaluates `zero_split(source_ids)` — `zero_split` is not
defined anywhere in the module — and `copy_source_ids`, `target_len` and
`target_ids` are likewise referenced without ever being assigned, so the call
raises `NameError` before any instance is created or any bucket is filled. -/
def read_data (lines : List (List Nat)) (buckets : List (Nat × Nat))
    (max_size : Option Nat) :
    Except (List Char) (List (List (List Nat × List Nat))) :=
  if max_size = some 1 then Except.ok (buckets.map (fun _ => []))
  else
    match lines with
    | [] => Except.ok (buckets.map (fun _ => []))
    | _ :: _ =>
      Except.error ("NameError: name zero_split is not defined".toList)

/-! ## Basic facts about token kinds -/

theorem punct_underscore : isPunct (Char.ofNat 95) = true := by decide

theorem word_ne_space {t : List Char} (h : isWordTok t) : t ≠ _SPACE := by
  rintro rfl
  exact absurd (h.2 (Char.ofNat 95) (by decide)) (by decide)

theorem word_not_char {t : List Char} (h : isWordTok t) : is_char t = false := by
  cases hc : is_char t with
  | false => rfl
  | true =>
    rw [is_char, Bool.and_eq_true] at hc
    have h2 : t.take _CHAR_MARKER.length = _CHAR_MARKER := eq_of_beq hc.2
    have hm : Char.ofNat 95 ∈ t := by
      refine List.take_subset _CHAR_MARKER.length t ?_
      rw [h2]; decide
    exact absurd (h.2 _ hm) (by decide)

theorem charTok_is_char {t : List Char} (h : isCharTok t) : is_char t = true := by
  obtain ⟨c, _, rfl⟩ := h
  rw [is_char, Bool.and_eq_true]
  exact ⟨by simp [_CHAR_MARKER], beq_iff_eq.2 (List.take_left _ _)⟩

theorem charTok_ne_space {t : List Char} (h : isCharTok t) : t ≠ _SPACE := by
  obtain ⟨c, _, rfl⟩ := h
  intro hs
  have := congrArg List.length hs
  simp [_CHAR_MARKER, _SPACE] at this

theorem charTok_not_word {t : List Char} (h : isCharTok t) : ¬isWordTok t := by
  obtain ⟨c, _, rfl⟩ := h
  intro hw
  exact absurd (hw.2 (Char.ofNat 95) (by simp [_CHAR_MARKER])) (by decide)

theorem punctTok_not_word {t : List Char} (h : isPunctTok t) : ¬isWordTok t := by
  obtain ⟨c, hc, rfl⟩ := h
  intro hw
  rw [hw.2 c (by simp)] at hc
  exact Bool.false_ne_true hc

theorem ttok_ne_space {t : List Char} (h : TTok t) : t ≠ _SPACE := by
  cases h with
  | inl h => exact word_ne_space h
  | inr h => exact charTok_ne_space h

theorem ttok_ne_nil {t : List Char} (h : TTok t) : t ≠ [] := by
  cases h with
  | inl h => exact h.1
  | inr h => obtain ⟨c, _, rfl⟩ := h; simp [_CHAR_MARKER]

theorem space_not_char : is_char _SPACE = false := by decide

theorem ttok_is_char_iff {t : List Char} (h : TTok t) :
    is_char t = true ↔ isCharTok t := by
  constructor
  · intro hc
    cases h with
    | inl hw => rw [word_not_char hw] at hc; exact absurd hc (by simp)
    | inr hch => exact hch
  · exact charTok_is_char

/-! ## Facts about `tagTok` -/

theorem tagTok_word {t : List Char} (h : isWordTok t) : tagTok t = t := by
  match t with
  | [] => rfl
  | [c] => simp [tagTok, h.2 c (by simp)]
  | a :: b :: r => rfl

theorem tagTok_word_of_word {t : List Char} (h : isWordTok (tagTok t)) :
    isWordTok t := by
  match t with
  | [] => exact h
  | [c] =>
    by_cases hp : isPunct c = true
    · exfalso
      refine charTok_not_word ⟨c, hp, ?_⟩ h
      simp [tagTok, hp]
    · simpa [tagTok, hp] using h
  | a :: b :: r => exact h

theorem tagTok_raw {t : List Char} (h : rawTok t) : TTok (tagTok t) := by
  cases h with
  | inl hw => rw [tagTok_word hw]; exact Or.inl hw
  | inr hp =>
    obtain ⟨c, hc, rfl⟩ := hp
    right
    exact ⟨c, hc, by simp [tagTok, hc]⟩

theorem noWW_tag {a b : List Char} (h : noWW a b) : noWW (tagTok a) (tagTok b) :=
  fun ⟨ha, hb⟩ => h ⟨tagTok_word_of_word ha, tagTok_word_of_word hb⟩

theorem untag_tag {t : List Char} (h : rawTok t) :
    (if is_char (tagTok t) then (tagTok t).drop _CHAR_MARKER.length
     else tagTok t) = t := by
  cases h with
  | inl hw =>
    rw [tagTok_word hw, word_not_char hw]
    simp
  | inr hp =>
    obtain ⟨c, hc, rfl⟩ := hp
    have ht : tagTok [c] = _CHAR_MARKER ++ [c] := by simp [tagTok, hc]
    rw [ht, charTok_is_char ⟨c, hc, rfl⟩]
    simp [List.drop_left]

/-! ## Facts about `wordSplitAux` -/

theorem wordSplitAux_flatten : ∀ (f acc : List Char),
    (wordSplitAux acc f).flatten = acc.reverse ++ f := by
  intro f
  induction f with
  | nil => intro acc; by_cases h : acc = [] <;> simp [wordSplitAux, h]
  | cons c cs ih =>
    intro acc
    by_cases hp : isPunct c
    · by_cases h : acc = [] <;> simp [wordSplitAux, hp, h, ih]
    · simp only [wordSplitAux, hp, if_neg, Bool.false_eq_true, ite_false, ih]
      simp

theorem wordSplitAux_raw : ∀ (f acc : List Char),
    (∀ c ∈ acc, isPunct c = false) → ∀ t ∈ wordSplitAux acc f, rawTok t := by
  intro f
  induction f with
  | nil =>
    intro acc hacc t ht
    by_cases h : acc = []
    · simp [wordSplitAux, h] at ht
    · simp [wordSplitAux, h] at ht
      subst ht
      exact Or.inl ⟨by simpa using h, by simpa using hacc⟩
  | cons c cs ih =>
    intro acc hacc t ht
    by_cases hp : isPunct c
    · by_cases h : acc = []
      · simp [wordSplitAux, hp, h] at ht
        rcases ht with rfl | ht
        · exact Or.inr ⟨c, hp, rfl⟩
        · exact ih [] (by simp) t ht
      · simp [wordSplitAux, hp, h] at ht
        rcases ht with rfl | rfl | ht
        · exact Or.inl ⟨by simpa using h, by simpa using hacc⟩
        · exact Or.inr ⟨c, hp, rfl⟩
        · exact ih [] (by simp) t ht
    · have hp' : isPunct c = false := by simpa using hp
      simp only [wordSplitAux, hp', Bool.false_eq_true, ite_false] at ht
      exact ih (c :: acc) (by
        intro d hd
        rcases List.mem_cons.1 hd with rfl | hd
        · exact hp'
        · exact hacc d hd) t ht

theorem not_word_of_punct_singleton {c : Char} (hc : isPunct c = true) :
    ¬isWordTok [c] := punctTok_not_word ⟨c, hc, rfl⟩

theorem wordSplitAux_chain : ∀ (f acc : List Char),
    List.Chain' noWW (wordSplitAux acc f) := by
  intro f
  induction f with
  | nil =>
    intro acc
    by_cases h : acc = [] <;> simp [wordSplitAux, h]
  | cons c cs ih =>
    intro acc
    by_cases hp : isPunct c
    · have hnw : ¬isWordTok [c] := not_word_of_punct_singleton (by simpa using hp)
      by_cases h : acc = []
      · simp only [wordSplitAux, hp, h, if_pos, ite_true]
        exact List.chain'_cons'.2 ⟨fun y _ => fun ⟨h1, _⟩ => hnw h1, ih []⟩
      · simp only [wordSplitAux, hp, h, ite_true, ite_false]
        refine List.chain'_cons'.2 ⟨?_, ?_⟩
        · intro y hy ⟨_, h2⟩
          simp at hy
          rw [← hy] at h2
          exact hnw h2
        · exact List.chain'_cons'.2 ⟨fun y _ => fun ⟨h1, _⟩ => hnw h1, ih []⟩
    · simp only [wordSplitAux, hp, Bool.false_eq_true, ite_false]
      exact ih (c :: acc)

theorem wordSplitAux_ne_nil : ∀ (f acc : List Char),
    acc ≠ [] ∨ f ≠ [] → wordSplitAux acc f ≠ [] := by
  intro f
  induction f with
  | nil =>
    intro acc h
    rcases h with h | h
    · simp [wordSplitAux, h]
    · exact absurd rfl h
  | cons c cs ih =>
    intro acc _
    by_cases hp : isPunct c
    · by_cases h : acc = [] <;> simp [wordSplitAux, hp, h]
    · simp only [wordSplitAux, hp, Bool.false_eq_true, ite_false]
      exact ih (c :: acc) (Or.inl (by simp))

/-! ## Facts about the detokenizer loop -/

theorem detok_char_head {t : List Char} (h : is_char t = true)
    (b : Bool) (ts : List (List Char)) :
    detokGo b (t :: ts) = t.drop _CHAR_MARKER.length ++ detokGo true ts := by
  simp [detokGo, h]

theorem detok_space_head (b : Bool) (ts : List (List Char)) :
    detokGo b (_SPACE :: ts) = Char.ofNat 32 :: detokGo true ts := by
  simp [detokGo, space_not_char]

theorem detok_word_head_true {t : List Char} (h : is_char t = false)
    (hs : t ≠ _SPACE) (ts : List (List Char)) :
    detokGo true (t :: ts) = t ++ detokGo false ts := by
  simp [detokGo, h, hs]

theorem detok_word_head_false {t : List Char} (h : is_char t = false)
    (hs : t ≠ _SPACE) (ts : List (List Char)) :
    detokGo false (t :: ts) = Char.ofNat 32 :: (t ++ detokGo false ts) := by
  simp [detokGo, h, hs]

/-- The head's branch of `detokGo` ignores `previous_nospace` when the head is
a character token. -/
theorem detok_char_head_state {t : List Char} (h : is_char t = true)
    (b b' : Bool) (ts : List (List Char)) :
    detokGo b (t :: ts) = detokGo b' (t :: ts) := by
  rw [detok_char_head h, detok_char_head h]

/-- Appending token lists under the detokenizer, with the state threaded by
`stateAfter`. -/
theorem detok_append : ∀ (xs : List (List Char)) (b : Bool)
    (ys : List (List Char)),
    detokGo b (xs ++ ys) = detokGo b xs ++ detokGo (stateAfter b xs) ys := by
  intro xs
  induction xs with
  | nil => intro b ys; simp [detokGo, stateAfter]
  | cons t xs ih =>
    intro b ys
    by_cases hc : is_char t = true
    · rw [List.cons_append, detok_char_head hc, detok_char_head hc, ih,
        List.append_assoc]
      congr 2
      simp [stateAfter, hc]
    · have hc' : is_char t = false := by simpa using hc
      by_cases hs : t = _SPACE
      · subst hs
        rw [List.cons_append, detok_space_head, detok_space_head, ih]
        simp [stateAfter, space_not_char]
      · cases b with
        | true =>
          rw [List.cons_append, detok_word_head_true hc' hs,
            detok_word_head_true hc' hs, ih, List.append_assoc]
          congr 2
          simp [stateAfter, hc', hs]
        | false =>
          rw [List.cons_append, detok_word_head_false hc' hs,
            detok_word_head_false hc' hs, ih]
          simp only [stateAfter, hc', hs, Bool.false_eq_true, ite_false,
            List.cons_append, List.append_assoc]

/-- The final state depends only on the last token. -/
theorem stateAfter_last : ∀ (ts : List (List Char)) {t : List Char} (b : Bool),
    ts.getLast? = some t →
    stateAfter b ts =
      (if is_char t then true else if t = _SPACE then true else false) := by
  intro ts
  induction ts with
  | nil => intro t b h; simp at h
  | cons t1 ts ih =>
    intro t b h
    cases ts with
    | nil =>
      simp at h
      subst h
      rfl
    | cons t2 r =>
      rw [List.getLast?_cons_cons] at h
      exact (ih b h : _)

theorem stateAfter_ttok {ts : List (List Char)} {t : List Char} (b : Bool)
    (h : ts.getLast? = some t) (ht : TTok t) :
    stateAfter b ts = is_char t := by
  rw [stateAfter_last ts b h]
  cases hc : is_char t with
  | true => simp
  | false => simp [ttok_ne_space ht]

/-! ## `TGood` lists: `spaceTokens` is the identity and the detokenizer
recovers the concatenation -/

theorem tgood_tail {t : List Char} {ts : List (List Char)}
    (h : TGood (t :: ts)) : TGood ts :=
  ⟨fun x hx => h.1 x (List.mem_cons_of_mem t hx), (List.chain'_cons'.1 h.2).2⟩

theorem spaceTokens_tgood : ∀ {ts : List (List Char)}, TGood ts →
    spaceTokens ts = ts := by
  intro ts
  induction ts with
  | nil => intro; rfl
  | cons t ts ih =>
    intro h
    cases ts with
    | nil => rfl
    | cons t2 r =>
      have ht : TTok t := h.1 t (by simp)
      have ht2 : TTok t2 := h.1 t2 (by simp)
      have hww : noWW t t2 := (List.chain'_cons'.1 h.2).1 t2 (by simp)
      have hcond : ¬(t ≠ _SPACE ∧ is_char t = false ∧ is_char t2 = false) := by
        rintro ⟨-, hc1, hc2⟩
        have hw1 : isWordTok t := by
          cases ht with
          | inl hw => exact hw
          | inr hch => rw [charTok_is_char hch] at hc1; exact absurd hc1 (by simp)
        have hw2 : isWordTok t2 := by
          cases ht2 with
          | inl hw => exact hw
          | inr hch => rw [charTok_is_char hch] at hc2; exact absurd hc2 (by simp)
        exact hww ⟨hw1, hw2⟩
      rw [spaceTokens, if_neg hcond]
      rw [ih (tgood_tail h)]

theorem spaceTokens_space_cons (ts : List (List Char)) :
    spaceTokens (_SPACE :: ts) = _SPACE :: spaceTokens ts := by
  cases ts with
  | nil => rfl
  | cons t2 r =>
    rw [spaceTokens, if_neg]
    rintro ⟨h, -⟩
    exact h rfl

theorem detok_tgood : ∀ {ts : List (List Char)}, TGood ts →
    detokGo true ts =
      (ts.map (fun t => if is_char t then t.drop _CHAR_MARKER.length
        else t)).flatten := by
  intro ts
  induction ts with
  | nil => intro; rfl
  | cons t ts ih =>
    intro h
    have ht : TTok t := h.1 t (by simp)
    have htail : TGood ts := tgood_tail h
    by_cases hc : is_char t = true
    · rw [detok_char_head hc, ih htail]
      simp [hc]
    · have hc' : is_char t = false := by simpa using hc
      have hs : t ≠ _SPACE := ttok_ne_space ht
      rw [detok_word_head_true hc' hs]
      cases ts with
      | nil => simp [hc', detokGo]
      | cons t2 r =>
        have ht2 : TTok t2 := h.1 t2 (by simp)
        have hww : noWW t t2 := (List.chain'_cons'.1 h.2).1 t2 (by simp)
        have hw1 : isWordTok t := by
          cases ht with
          | inl hw => exact hw
          | inr hch => rw [charTok_is_char hch] at hc'; exact absurd hc' (by simp)
        have hc2 : is_char t2 = true := by
          cases ht2 with
          | inl hw2 => exact absurd ⟨hw1, hw2⟩ hww
          | inr hch => exact charTok_is_char hch
        rw [detok_char_head_state hc2 false true, ih htail]
        simp [hc']

/-! ## The tokens contributed by one fragment -/

theorem fragTokens_good (f : List Char) : TGood (fragTokens f) := by
  constructor
  · intro t ht
    rw [fragTokens, List.mem_map] at ht
    obtain ⟨r, hr, rfl⟩ := ht
    exact tagTok_raw (wordSplitAux_raw f [] (by simp) r hr)
  · rw [fragTokens, List.chain'_map]
    exact (wordSplitAux_chain f []).imp fun a b => noWW_tag

theorem fragTokens_ne_nil {f : List Char} (hf : f ≠ []) : fragTokens f ≠ [] := by
  rw [fragTokens]
  simp only [ne_eq, List.map_eq_nil_iff]
  exact wordSplitAux_ne_nil f [] (Or.inr hf)

/-- The detokenizer started in the `no space pending` state reproduces the
fragment text from its tagged tokens. -/
theorem detok_fragTokens (f : List Char) : detokGo true (fragTokens f) = f := by
  rw [detok_tgood (fragTokens_good f), fragTokens, List.map_map]
  have : ((wordSplit f).map
      ((fun t => if is_char t then t.drop _CHAR_MARKER.length else t) ∘ tagTok))
      = (wordSplit f).map id := by
    apply List.map_congr_left
    intro r hr
    exact untag_tag (wordSplitAux_raw f [] (by simp) r hr)
  rw [this, List.map_id, wordSplit, wordSplitAux_flatten]
  rfl

/-! ## The `first_is_char` flag matches the head of the tagged tokens -/

theorem firstIsChar_eq (f : List Char) :
    firstIsChar (wordSplit f) = is_char ((fragTokens f).headD []) := by
  rcases hws : wordSplit f with _ | ⟨t, rest⟩
  · simp [firstIsChar, fragTokens, hws]
    decide
  · have hraw : rawTok t := by
      refine wordSplitAux_raw f [] (by simp) t ?_
      rw [← wordSplit, hws]
      simp
    have hhead : (fragTokens f).headD [] = tagTok t := by
      rw [fragTokens, hws]
      rfl
    rw [hhead]
    cases hraw with
    | inl hw =>
      rw [tagTok_word hw, word_not_char hw]
      rcases t with _ | ⟨c, _ | ⟨d, r⟩⟩
      · exact absurd rfl hw.1
      · simp [firstIsChar, hw.2 c (by simp)]
      · rfl
    | inr hp =>
      obtain ⟨c, hc, rfl⟩ := hp
      have : tagTok [c] = _CHAR_MARKER ++ [c] := by simp [tagTok, hc]
      rw [this, charTok_is_char ⟨c, hc, rfl⟩]
      simp [firstIsChar, hc]

/-! ## Unfolding `processFragment` -/

theorem processFragment_def (W : List (List Char)) (f : List Char) :
    processFragment W f = W ++ spaceTokens (
      if W ≠ [] ∧ W.getLastD [] ≠ _SPACE ∧
          (firstIsChar (wordSplit f) = true ∨ is_char (W.getLastD []) = true)
      then _SPACE :: fragTokens f else fragTokens f) := rfl

theorem processFragment_nil (f : List Char) :
    processFragment [] f = fragTokens f := by
  rw [processFragment_def, if_neg (by rintro ⟨h, -⟩; exact h rfl),
    spaceTokens_tgood (fragTokens_good f)]
  rfl

/-- For an accumulated token list ending in a word or character token, the
fragment loop body appends the fragment's tagged tokens, with a `_SPACE`
in front exactly when the fragment starts with a character token or the
accumulated list ends in one. -/
theorem processFragment_eq {W : List (List Char)} {t0 : List Char}
    (h : W.getLast? = some t0) (ht0 : TTok t0) (f : List Char) :
    processFragment W f =
      W ++ (if firstIsChar (wordSplit f) = true ∨ is_char t0 = true
            then _SPACE :: fragTokens f else fragTokens f) := by
  have hW : W ≠ [] := by
    intro h'
    rw [h'] at h
    simp at h
  have hlast : W.getLastD [] = t0 := by
    rw [List.getLastD_eq_getLast?, h]
    rfl
  rw [processFragment_def]
  by_cases hca : firstIsChar (wordSplit f) = true ∨ is_char t0 = true
  · rw [if_pos hca, if_pos ⟨hW, by rw [hlast]; exact ttok_ne_space ht0,
      by rw [hlast]; exact hca⟩]
    rw [spaceTokens_space_cons, spaceTokens_tgood (fragTokens_good f)]
  · rw [if_neg hca, if_neg (by rw [hlast]; rintro ⟨-, -, hor⟩; exact hca hor)]
    rw [spaceTokens_tgood (fragTokens_good f)]

theorem getLast?_cons_of_ne_nil {α : Type} (x : α) {l : List α} (h : l ≠ []) :
    (x :: l).getLast? = l.getLast? := by
  cases l with
  | nil => exact absurd rfl h
  | cons y r => rw [List.getLast?_cons_cons]

theorem tgood_getLast {ts : List (List Char)} (h : TGood ts) (hne : ts ≠ []) :
    ∃ t, ts.getLast? = some t ∧ TTok t :=
  ⟨ts.getLast hne, List.getLast?_eq_getLast ts hne,
    h.1 _ (List.getLast_mem hne)⟩

/-! ## The main fold invariant for the round trip -/

/-- Folding the fragment loop over further nonempty fragments appends, under
the detokenizer, exactly one space and the fragment text per fragment. -/
theorem foldl_detok : ∀ (frags : List (List Char)) (W : List (List Char))
    (t0 : List Char), (∀ f ∈ frags, f ≠ []) → W.getLast? = some t0 →
    TTok t0 →
    detokGo true (frags.foldl processFragment W) =
      detokGo true W ++
        (frags.map (fun f => Char.ofNat 32 :: f)).flatten := by
  intro frags
  induction frags with
  | nil => intro W t0 _ _ _; simp
  | cons f frags ih =>
    intro W t0 hne hlast ht0
    have hf : f ≠ [] := hne f (by simp)
    have hfrag := fragTokens_good f
    have hfne := fragTokens_ne_nil hf
    obtain ⟨t1, ht1last, ht1⟩ := tgood_getLast hfrag hfne
    have hstate : stateAfter true W = is_char t0 := stateAfter_ttok true hlast ht0
    rw [List.foldl_cons, processFragment_eq hlast ht0 f]
    by_cases hca : firstIsChar (wordSplit f) = true ∨ is_char t0 = true
    · rw [if_pos hca]
      have hlast' : (W ++ (_SPACE :: fragTokens f)).getLast? = some t1 := by
        rw [List.getLast?_append_of_ne_nil _ (by simp),
          getLast?_cons_of_ne_nil _ hfne]
        exact ht1last
      rw [ih _ t1 (fun g hg => hne g (by simp [hg])) hlast' ht1]
      rw [detok_append, hstate, detok_space_head, detok_fragTokens]
      simp
    · rw [if_neg hca]
      push_neg at hca
      have hfic : firstIsChar (wordSplit f) = false := by
        simpa using hca.1
      have ht0c : is_char t0 = false := by simpa using hca.2
      have hlast' : (W ++ fragTokens f).getLast? = some t1 := by
        rw [List.getLast?_append_of_ne_nil _ hfne]
        exact ht1last
      rw [ih _ t1 (fun g hg => hne g (by simp [hg])) hlast' ht1]
      rw [detok_append, hstate, ht0c]
      rcases hT : fragTokens f with _ | ⟨h2, r⟩
      · exact absurd hT hfne
      · have hh2 : TTok h2 := hfrag.1 h2 (by rw [hT]; simp)
        have hh2c : is_char h2 = false := by
          have := firstIsChar_eq f
          rw [hfic, hT] at this
          exact this.symm
        have hh2s : h2 ≠ _SPACE := ttok_ne_space hh2
        have hdetok : detokGo false (h2 :: r) =
            Char.ofNat 32 :: detokGo true (h2 :: r) := by
          rw [detok_word_head_false hh2c hh2s, detok_word_head_true hh2c hh2s]
        rw [hdetok, ← hT, detok_fragTokens]
        simp

/-! ## Nonemptiness of whitespace fragments -/

theorem splitWSAux_mem_ne_nil : ∀ (s acc : List Char) (t : List Char),
    t ∈ splitWSAux acc s → t ≠ [] := by
  intro s
  induction s with
  | nil =>
    intro acc t ht
    by_cases h : acc = []
    · simp [splitWSAux, h] at ht
    · simp [splitWSAux, h] at ht
      subst ht
      simpa using h
  | cons c cs ih =>
    intro acc t ht
    by_cases hsp : isPySpace c
    · by_cases h : acc = []
      · simp only [splitWSAux, hsp, h, ite_true] at ht
        exact ih [] t ht
      · simp only [splitWSAux, hsp, h, ite_true, ite_false] at ht
        rcases List.mem_cons.1 ht with rfl | ht
        · simpa using h
        · exact ih [] t ht
    · simp only [splitWSAux, hsp, Bool.false_eq_true, ite_false] at ht
      exact ih (c :: acc) t ht

theorem joinSpace_eq_flatten : ∀ (f : List Char) (frags : List (List Char)),
    joinSpace (f :: frags) =
      f ++ (frags.map (fun g => Char.ofNat 32 :: g)).flatten := by
  intro f frags
  induction frags generalizing f with
  | nil => simp [joinSpace]
  | cons g frags ih =>
    rw [joinSpace, ih g]
    simp

/-- C1.  For every sentence, detokenizing the output of the basic tokenizer
(default, non-legacy mode) reproduces the sentence with whitespace runs
normalized to single spaces (and outer whitespace removed, as
`normalize_whitespace`, the model of Python's `" ".join(s.split())`, does):
`basic_detokenizer (basic_tokenizer s) = normalize_whitespace s`. -/
theorem C1_tokenize_detokenize_roundtrip (s : List Char) :
    basic_detokenizer (basic_tokenizer s) = normalize_whitespace s := by
  have hne : ∀ g ∈ splitWS s, g ≠ [] :=
    fun g hg => splitWSAux_mem_ne_nil s [] g hg
  rw [basic_tokenizer, basic_detokenizer, normalize_whitespace]
  rcases hsp : splitWS s with _ | ⟨f, frags⟩
  · rfl
  · rw [hsp] at hne
    have hf : f ≠ [] := hne f (by simp)
    rw [List.foldl_cons, processFragment_nil]
    obtain ⟨t1, hl, ht1⟩ :=
      tgood_getLast (fragTokens_good f) (fragTokens_ne_nil hf)
    rw [foldl_detok frags (fragTokens f) t1
      (fun g hg => hne g (by simp [hg])) hl ht1]
    rw [detok_fragTokens, joinSpace_eq_flatten]

/-! ## The accumulated-words invariant of `basic_tokenizer` -/

theorem chain_noSS_of_ne : ∀ {ts : List (List Char)},
    (∀ t ∈ ts, t ≠ _SPACE) → ts.Chain' noSS := by
  intro ts
  induction ts with
  | nil => intro; exact List.chain'_nil
  | cons t r ih =>
    intro h
    refine List.chain'_cons'.2 ⟨?_, ih fun x hx => h x (by simp [hx])⟩
    rintro y - ⟨h1, -⟩
    exact h t (by simp) h1

theorem fragTokens_chain_noSS (f : List Char) :
    (fragTokens f).Chain' noSS :=
  chain_noSS_of_ne fun t ht => ttok_ne_space ((fragTokens_good f).1 t ht)

theorem invW_fragTokens (f : List Char) : InvW (fragTokens f) := by
  refine ⟨fun t ht => Or.inl ((fragTokens_good f).1 t ht),
    fragTokens_chain_noSS f, ?_, ?_⟩
  · intro h hh
    exact ttok_ne_space ((fragTokens_good f).1 h (List.mem_of_mem_head? hh))
  · rcases hT : fragTokens f with _ | ⟨h2, r⟩
    · exact Or.inl rfl
    · right
      rw [← hT]
      exact tgood_getLast (fragTokens_good f) (by rw [hT]; simp)

theorem processFragment_inv {W : List (List Char)} {f : List Char}
    (hW : InvW W) (hf : f ≠ []) : InvW (processFragment W f) := by
  obtain ⟨hmem, hchain, hhead, hlastd⟩ := hW
  rcases hlastd with hWnil | ⟨t0, hlast, ht0⟩
  · subst hWnil
    rw [processFragment_nil]
    exact invW_fragTokens f
  · have hWne : W ≠ [] := by
      intro h'
      rw [h'] at hlast
      simp at hlast
    have hfne := fragTokens_ne_nil hf
    obtain ⟨t1, ht1last, ht1⟩ := tgood_getLast (fragTokens_good f) hfne
    rw [processFragment_eq hlast ht0 f]
    set Δ := (if firstIsChar (wordSplit f) = true ∨ is_char t0 = true
              then _SPACE :: fragTokens f else fragTokens f) with hΔ
    have hΔne : Δ ≠ [] := by
      rw [hΔ]
      split <;> simp [hfne]
    have hΔmem : ∀ t ∈ Δ, TTok t ∨ t = _SPACE := by
      intro t ht
      rw [hΔ] at ht
      split at ht
      · rcases List.mem_cons.1 ht with rfl | ht
        · exact Or.inr rfl
        · exact Or.inl ((fragTokens_good f).1 t ht)
      · exact Or.inl ((fragTokens_good f).1 t ht)
    have hΔchain : Δ.Chain' noSS := by
      rw [hΔ]
      split
      · refine List.chain'_cons'.2 ⟨?_, fragTokens_chain_noSS f⟩
        rintro y hy ⟨-, h2⟩
        exact ttok_ne_space
          ((fragTokens_good f).1 y (List.mem_of_mem_head? hy)) h2
      · exact fragTokens_chain_noSS f
    have hΔlast : Δ.getLast? = some t1 := by
      rw [hΔ]
      split
      · rw [getLast?_cons_of_ne_nil _ hfne]
        exact ht1last
      · exact ht1last
    refine ⟨?_, ?_, ?_, ?_⟩
    · intro t ht
      rcases List.mem_append.1 ht with ht | ht
      · exact hmem t ht
      · exact hΔmem t ht
    · refine List.chain'_append.2 ⟨hchain, hΔchain, ?_⟩
      intro x hx y _
      have hx0 : x = t0 := by
        rw [hlast] at hx
        exact (by simpa using hx : t0 = x).symm
      rintro ⟨h1, -⟩
      exact ttok_ne_space ht0 (hx0 ▸ h1)
    · intro h hh
      rcases W with _ | ⟨w, W'⟩
      · exact absurd rfl hWne
      · rw [List.cons_append] at hh
        simp only [List.head?_cons] at hh
        exact hhead h (by simpa using hh)
    · right
      refine ⟨t1, ?_, ht1⟩
      rw [List.getLast?_append_of_ne_nil _ hΔne]
      exact hΔlast

theorem foldl_inv : ∀ (frags : List (List Char)) (W : List (List Char)),
    (∀ f ∈ frags, f ≠ []) → InvW W →
    InvW (frags.foldl processFragment W) := by
  intro frags
  induction frags with
  | nil => intro W _ h; exact h
  | cons f frags ih =>
    intro W hne hW
    rw [List.foldl_cons]
    exact ih _ (fun g hg => hne g (by simp [hg]))
      (processFragment_inv hW (hne f (by simp)))

theorem basic_tokenizer_inv (s : List Char) : InvW (basic_tokenizer s) := by
  rw [basic_tokenizer]
  exact foldl_inv _ []
    (fun f hf => splitWSAux_mem_ne_nil s [] f hf)
    ⟨by simp, List.chain'_nil, by simp, Or.inl rfl⟩

/-- C9.  In the default (non-legacy) mode, the token list of
`basic_tokenizer` contains no empty token, never two consecutive `_SPACE`
tokens, and neither begins nor ends with a `_SPACE` token. -/
theorem C9_basic_tokenizer_space_invariants (s : List Char) :
    (∀ t ∈ basic_tokenizer s, t ≠ []) ∧
    (basic_tokenizer s).Chain' noSS ∧
    (∀ h ∈ (basic_tokenizer s).head?, h ≠ _SPACE) ∧
    (∀ h ∈ (basic_tokenizer s).getLast?, h ≠ _SPACE) := by
  obtain ⟨hmem, hchain, hhead, hlastd⟩ := basic_tokenizer_inv s
  refine ⟨?_, hchain, hhead, ?_⟩
  · intro t ht
    rcases hmem t ht with h | rfl
    · exact ttok_ne_nil h
    · simp [_SPACE]
  · intro h hh
    rcases hlastd with hnil | ⟨t, hl, ht⟩
    · rw [hnil] at hh
      simp at hh
    · rw [hl] at hh
      have : h = t := (by simpa using hh : t = h).symm
      exact this ▸ ttok_ne_space ht

/-! ## Whitespace-only sentences -/

theorem splitWSAux_allspace : ∀ (s : List Char),
    (∀ c ∈ s, isPySpace c = true) → splitWSAux [] s = [] := by
  intro s
  induction s with
  | nil => intro; rfl
  | cons c cs ih =>
    intro h
    have hc : isPySpace c = true := h c (by simp)
    simp only [splitWSAux, hc, ite_true]
    exact ih fun x hx => h x (by simp [hx])

/-- C10.  On an empty or whitespace-only sentence, `basic_tokenizer` and
`space_tokenizer` return the empty token list, `sentence_to_token_ids`
returns the empty id list with either tokenizer, and `basic_detokenizer`
of the empty token list is the empty string. -/
theorem C10_empty_sentence (s : List Char)
    (vocab : List (List Char × Nat)) (nd : Bool)
    (h : ∀ c ∈ s, isPySpace c = true) :
    basic_tokenizer s = [] ∧ space_tokenizer s = [] ∧
    sentence_to_token_ids s vocab basic_tokenizer nd = [] ∧
    sentence_to_token_ids s vocab space_tokenizer nd = [] ∧
    basic_detokenizer [] = [] := by
  have hsp : splitWS s = [] := splitWSAux_allspace s h
  have h1 : basic_tokenizer s = [] := by rw [basic_tokenizer, hsp]; rfl
  have h2 : space_tokenizer s = [] := by rw [space_tokenizer, hsp]
  refine ⟨h1, h2, ?_, ?_, rfl⟩
  · rw [sentence_to_token_ids, h1]; rfl
  · rw [sentence_to_token_ids, h2]; rfl

theorem C10_empty_sentence_witness :
    (∀ c ∈ [Char.ofNat 32, Char.ofNat 9], isPySpace c = true) ∧
    (basic_tokenizer [Char.ofNat 32, Char.ofNat 9] = [] ∧
      space_tokenizer [Char.ofNat 32, Char.ofNat 9] = [] ∧
      sentence_to_token_ids [Char.ofNat 32, Char.ofNat 9] [] basic_tokenizer
        false = [] ∧
      sentence_to_token_ids [Char.ofNat 32, Char.ofNat 9] [] space_tokenizer
        false = [] ∧
      basic_detokenizer [] = []) :=
  ⟨by decide, C10_empty_sentence [Char.ofNat 32, Char.ofNat 9] [] false
    (by decide)⟩

/-! ## `read_data`: evaluating the reader at concrete inputs -/

/-- C2.  The claim describes the intended heldout-instance generation (the
line `[10, 11, 12]` yielding `([H,11,12],10)`, `([10,H,12],11)`,
`([10,11,H],12)`), but the loop body of `read_data` references the undefined
names `zero_split`, `copy_source_ids`, `target_len` and `target_ids`, so the
call fails on its first data line and produces no instance at all. -/
theorem C2_read_data_heldout_crash :
    read_data [[10, 11, 12]] [(5, 10)] none =
      Except.error ("NameError: name zero_split is not defined".toList) := rfl

/-- C3.  The claim describes the intended first-fit bucket assignment, but
`read_data` fails with `NameError` on its first data line, before any bucket
is examined (moreover its bucket test compares the lengths against the bucket
pair `size` itself, not against `size[0]` and `size[1]`). -/
theorem C3_read_data_bucket_crash :
    read_data [[10, 11, 12, 13]] [(5, 10), (10, 20)] none =
      Except.error ("NameError: name zero_split is not defined".toList) := rfl

/-! ## `initialize_vocabulary` -/

/-- C8.  `initialize_vocabulary` raises the not-found error exactly when the
vocabulary path does not exist (the file argument is `none`); on an existing
path it returns normally, with no retry and no partial result. -/
theorem C8_initialize_vocabulary_not_found (file : Option (List (List Char))) :
    (∃ e, initialize_vocabulary file = Except.error e) ↔ file = none := by
  cases file with
  | none => exact ⟨fun _ => rfl, fun _ => ⟨_, rfl⟩⟩
  | some lines => simp [initialize_vocabulary]

theorem C8_initialize_vocabulary_witness :
    ∃ e, initialize_vocabulary none = Except.error e :=
  (C8_initialize_vocabulary_not_found none).2 rfl

/-! ## Dict lookup facts -/

theorem dget_mem : ∀ {d : List (List Char × Nat)} {k : List Char} {v : Nat},
    dget d k = some v → (k, v) ∈ d := by
  intro d
  induction d with
  | nil => intro k v h; simp [dget] at h
  | cons p rest ih =>
    intro k v h
    obtain ⟨k', v'⟩ := p
    rw [dget] at h
    by_cases hk : k' = k
    · rw [if_pos hk] at h
      subst hk
      have : v' = v := by simpa using h
      subst this
      exact List.mem_cons_self _ _
    · rw [if_neg hk] at h
      exact List.mem_cons_of_mem _ (ih h)

theorem mem_dict_update {d : List (List Char × Nat)} {k : List Char} {v : Nat}
    {p : List Char × Nat} (h : p ∈ dict_update d k v) :
    p ∈ d ∨ p = (k, v) := by
  rw [dict_update] at h
  split at h
  · rw [List.mem_map] at h
    obtain ⟨q, hq, hqe⟩ := h
    by_cases hk : q.1 = k
    · rw [if_pos hk] at hqe
      exact Or.inr hqe.symm
    · rw [if_neg hk] at hqe
      exact Or.inl (hqe ▸ hq)
  · rcases List.mem_append.1 h with h | h
    · exact Or.inl h
    · simp only [List.mem_singleton] at h
      exact Or.inr h

theorem mem_dict_of {ps : List (List Char × Nat)} {p : List Char × Nat}
    (h : p ∈ dict_of ps) : p ∈ ps := by
  suffices H : ∀ (qs : List (List Char × Nat)) (d : List (List Char × Nat)),
      p ∈ qs.foldl (fun d q => dict_update d q.1 q.2) d → p ∈ d ∨ p ∈ qs by
    rcases H ps [] h with h' | h'
    · simp at h'
    · exact h'
  intro qs
  induction qs with
  | nil => intro d h'; exact Or.inl h'
  | cons q qs ih =>
    intro d h'
    rw [List.foldl_cons] at h'
    rcases ih _ h' with h'' | h''
    · rcases mem_dict_update h'' with h3 | h3
      · exact Or.inl h3
      · exact Or.inr (by simp [h3])
    · exact Or.inr (by simp [h''])

/-- C6.  Loading an existing vocabulary file returns the stripped lines in
order as the reversed vocabulary, and a forward dict mapping tokens to
0-based line numbers; every successful lookup points back at its own line:
`rev_vocab[vocab[token]] == token`. -/
theorem C6_initialize_vocabulary_consistent (lines : List (List Char))
    (t : List Char) (i : Nat)
    (h : dget (dict_of (((lines.map strip).enum).map (fun p => (p.2, p.1)))) t
        = some i) :
    initialize_vocabulary (some lines) =
      Except.ok (dict_of (((lines.map strip).enum).map (fun p => (p.2, p.1))),
        lines.map strip) ∧
    (lines.map strip)[i]? = some t := by
  refine ⟨rfl, ?_⟩
  have hmem := mem_dict_of (dget_mem h)
  rw [List.mem_map] at hmem
  obtain ⟨⟨j, x⟩, hj, he⟩ := hmem
  have hx : x = t := congrArg Prod.fst he
  have hji : j = i := congrArg Prod.snd he
  subst hx
  subst hji
  exact List.mk_mem_enum_iff_getElem?.1 hj

theorem C6_initialize_vocabulary_witness :
    dget (dict_of ((((["dog".toList, "cat".toList].map strip).enum).map
        (fun p => (p.2, p.1)))) ) ("cat".toList) = some 1 ∧
    (initialize_vocabulary (some ["dog".toList, "cat".toList]) =
      Except.ok
        (dict_of ((((["dog".toList, "cat".toList].map strip).enum).map
          (fun p => (p.2, p.1)))),
          ["dog".toList, "cat".toList].map strip) ∧
      (["dog".toList, "cat".toList].map strip)[1]? = some ("cat".toList)) :=
  ⟨by decide, C6_initialize_vocabulary_consistent
    ["dog".toList, "cat".toList] ("cat".toList) 1 (by decide)⟩

/-! ## Sentence encoding -/

/-- C5.  `sentence_to_token_ids` never drops a token: the output length
equals the number of tokens the tokenizer produced, and every position whose
(possibly digit-normalized) token is absent from the vocabulary carries
exactly `UNK_ID`. -/
theorem C5_sentence_to_token_ids_alignment (s : List Char)
    (vocab : List (List Char × Nat))
    (tokenizer : List Char → List (List Char)) (nd : Bool) :
    (sentence_to_token_ids s vocab tokenizer nd).length =
      (tokenizer s).length ∧
    (∀ (i : Nat) (w : List Char), (tokenizer s)[i]? = some w →
      dget vocab (if nd then normDigits w else w) = none →
      (sentence_to_token_ids s vocab tokenizer nd)[i]? = some UNK_ID) := by
  constructor
  · rw [sentence_to_token_ids, List.length_map]
  · intro i w hw hnone
    rw [sentence_to_token_ids, List.getElem?_map, hw]
    show some (match dget vocab (if nd then normDigits w else w) with
      | some id => id
      | none => UNK_ID) = some UNK_ID
    rw [hnone]

theorem C5_sentence_to_token_ids_witness :
    (space_tokenizer ("hello xyz".toList))[1]? = some ("xyz".toList) ∧
    dget [("hello".toList, 5)] ("xyz".toList) = none ∧
    (sentence_to_token_ids ("hello xyz".toList) [("hello".toList, 5)]
      space_tokenizer false)[1]? = some UNK_ID :=
  ⟨by decide, by decide,
    (C5_sentence_to_token_ids_alignment ("hello xyz".toList)
      [("hello".toList, 5)] space_tokenizer false).2 1 ("xyz".toList)
      (by decide) (by decide)⟩

/-! ## Vocabulary size bound (C4) -/

/-- C4 counterexample.  The claim asserts the first 4 vocabulary entries are
the reserved symbols for ANY `max_vocabulary_size`; with
`max_vocabulary_size = 2` and an empty corpus the vocabulary is truncated to
`[_PAD, _HELDOUT]`, so its first 4 entries are not the 4 reserved symbols. -/
theorem C4_counterexample_small_max :
    (create_vocabulary [] space_tokenizer (some 2) false).take 4 ≠
      _START_VOCAB := by decide

/-- C4 (amended).  For any corpus and any `max_vocabulary_size = K` with
`4 ≤ K`, the vocabulary has length at most `K` and its first 4 entries are
exactly `_PAD`, `_HELDOUT`, `_EOS`, `_CHAR_UNK` in that order. -/
theorem create_vocabulary_some (lines : List (List Char))
    (tokenizer : List Char → List (List Char)) (K : Nat) (nd : Bool) :
    create_vocabulary lines tokenizer (some K) nd =
      (if K ≠ 0 ∧ K < (_START_VOCAB ++
          (sort_desc (vocab_counts tokenizer nd lines)).map Prod.fst).length
       then (_START_VOCAB ++
          (sort_desc (vocab_counts tokenizer nd lines)).map Prod.fst).take K
       else _START_VOCAB ++
          (sort_desc (vocab_counts tokenizer nd lines)).map Prod.fst) := rfl

theorem create_vocabulary_none (lines : List (List Char))
    (tokenizer : List Char → List (List Char)) (nd : Bool) :
    create_vocabulary lines tokenizer none nd =
      _START_VOCAB ++
        (sort_desc (vocab_counts tokenizer nd lines)).map Prod.fst := rfl

theorem C4_vocabulary_bound (lines : List (List Char))
    (tokenizer : List Char → List (List Char)) (nd : Bool) (K : Nat)
    (hK : 4 ≤ K) :
    (create_vocabulary lines tokenizer (some K) nd).length ≤ K ∧
    (create_vocabulary lines tokenizer (some K) nd).take 4 = _START_VOCAB := by
  have hstart : _START_VOCAB.length = 4 := rfl
  have htake : ∀ rest : List (List Char),
      (_START_VOCAB ++ rest).take 4 = _START_VOCAB := by
    intro rest
    rw [← hstart, List.take_left]
  rw [create_vocabulary_some]
  set rest := (sort_desc (vocab_counts tokenizer nd lines)).map Prod.fst
    with hrest
  by_cases h : K ≠ 0 ∧ K < (_START_VOCAB ++ rest).length
  · rw [if_pos h]
    constructor
    · rw [List.length_take]
      exact min_le_left _ _
    · rw [List.take_take, min_eq_left hK, htake]
  · rw [if_neg h]
    constructor
    · rcases Nat.lt_or_ge K (_START_VOCAB ++ rest).length with hlt | hge
      · exact absurd ⟨by omega, hlt⟩ h
      · exact hge
    · exact htake rest

/-! ## Frequency counting: the accumulated dict of `create_vocabulary` -/

theorem dget_isSome_iff (d : List (List Char × Nat)) (k : List Char) :
    (dget d k).isSome = true ↔ k ∈ d.map Prod.fst := by
  induction d with
  | nil => simp [dget]
  | cons p rest ih =>
    obtain ⟨k', v⟩ := p
    by_cases hk : k' = k
    · subst hk
      simp [dget]
    · have hk' : ¬k = k' := fun h => hk h.symm
      simp [dget, hk, hk', ih]

theorem bump_keys (d : List (List Char × Nat)) (w : List Char) :
    (bump d w).map Prod.fst =
      if (dget d w).isSome then d.map Prod.fst
      else d.map Prod.fst ++ [w] := by
  induction d with
  | nil => simp [bump, dget]
  | cons p rest ih =>
    obtain ⟨k, n⟩ := p
    by_cases hk : k = w
    · subst hk
      simp [bump, dget]
    · by_cases h2 : (dget rest w).isSome
      · simp [bump, dget, hk, ih, h2]
      · simp [bump, dget, hk, ih, h2]

theorem dget_bump_self (d : List (List Char × Nat)) (w : List Char) :
    dget (bump d w) w = some ((dget d w).getD 0 + 1) := by
  induction d with
  | nil => simp [bump, dget]
  | cons p rest ih =>
    obtain ⟨k, n⟩ := p
    by_cases hk : k = w
    · subst hk
      simp [bump, dget]
    · simp [bump, dget, hk, ih]

theorem dget_bump_other (d : List (List Char × Nat)) (w v : List Char)
    (h : v ≠ w) : dget (bump d w) v = dget d v := by
  have hwv : ¬w = v := fun hh => h hh.symm
  induction d with
  | nil => simp [bump, dget, hwv]
  | cons p rest ih =>
    obtain ⟨k, n⟩ := p
    by_cases hk : k = w
    · simp [bump, dget, hk, hwv]
    · by_cases hv : k = v
      · simp [bump, dget, hk, hv, h]
      · simp [bump, dget, hk, hv, ih]

theorem dget_foldl_bump : ∀ (ws : List (List Char))
    (d : List (List Char × Nat)) (w : List Char),
    dget (ws.foldl bump d) w =
      match dget d w with
      | some m => some (m + ws.count w)
      | none => if 0 < ws.count w then some (ws.count w) else none := by
  intro ws
  induction ws with
  | nil =>
    intro d w
    cases h : dget d w <;> simp [h]
  | cons a ws ih =>
    intro d w
    rw [List.foldl_cons, ih]
    by_cases ha : a = w
    · subst ha
      rw [dget_bump_self, List.count_cons_self]
      cases h : dget d a with
      | none => simp [h]; omega
      | some m => simp [h]; omega
    · rw [dget_bump_other _ _ _ (Ne.symm ha),
        List.count_cons_of_ne (Ne.symm ha)]

theorem keys_foldl_bump : ∀ (ws : List (List Char))
    (d : List (List Char × Nat)),
    (ws.foldl bump d).map Prod.fst =
      d.map Prod.fst ++ dedup_first (d.map Prod.fst) ws := by
  intro ws
  induction ws with
  | nil => intro d; simp [dedup_first]
  | cons a ws ih =>
    intro d
    rw [List.foldl_cons, ih, bump_keys]
    by_cases h : (dget d a).isSome = true
    · rw [if_pos h, dedup_first, if_pos ((dget_isSome_iff d a).1 h)]
    · have hmem : a ∉ d.map Prod.fst :=
        fun hm => h ((dget_isSome_iff d a).2 hm)
      rw [if_neg h, dedup_first, if_neg hmem]
      simp

theorem mem_dedup_first : ∀ (ws seen : List (List Char)) (w : List Char),
    w ∈ dedup_first seen ws ↔ (w ∉ seen ∧ w ∈ ws) := by
  intro ws
  induction ws with
  | nil => intro seen w; simp [dedup_first]
  | cons a ws ih =>
    intro seen w
    rw [dedup_first]
    by_cases ha : a ∈ seen
    · rw [if_pos ha, ih]
      constructor
      · rintro ⟨h1, h2⟩
        exact ⟨h1, by simp [h2]⟩
      · rintro ⟨h1, h2⟩
        rcases List.mem_cons.1 h2 with rfl | h2
        · exact absurd ha h1
        · exact ⟨h1, h2⟩
    · rw [if_neg ha]
      constructor
      · intro h
        rcases List.mem_cons.1 h with rfl | h
        · exact ⟨ha, by simp⟩
        · obtain ⟨h1, h2⟩ := (ih _ w).1 h
          refine ⟨fun hs => h1 (by simp [hs]), by simp [h2]⟩
      · rintro ⟨h1, h2⟩
        rcases List.mem_cons.1 h2 with rfl | h2
        · simp
        · by_cases hw : w = a
          · simp [hw]
          · right
            exact (ih _ w).2 ⟨by simp [h1, hw], h2⟩

theorem dedup_first_nodup : ∀ (ws seen : List (List Char)),
    seen.Nodup → (seen ++ dedup_first seen ws).Nodup := by
  intro ws
  induction ws with
  | nil => intro seen h; simpa [dedup_first] using h
  | cons a ws ih =>
    intro seen h
    rw [dedup_first]
    by_cases ha : a ∈ seen
    · rw [if_pos ha]
      exact ih seen h
    · rw [if_neg ha]
      have : seen ++ a :: dedup_first (seen ++ [a]) ws =
          (seen ++ [a]) ++ dedup_first (seen ++ [a]) ws := by
        simp
      rw [this]
      refine ih (seen ++ [a]) ?_
      rw [List.nodup_append]
      exact ⟨h, List.nodup_singleton a, by simpa using ha⟩

theorem keys_nodup (ws : List (List Char)) :
    ((ws.foldl bump ([] : List (List Char × Nat))).map Prod.fst).Nodup := by
  rw [keys_foldl_bump]
  simpa using dedup_first_nodup ws [] List.nodup_nil

theorem dget_of_mem_nodup : ∀ {d : List (List Char × Nat)},
    (d.map Prod.fst).Nodup → ∀ {k : List Char} {v : Nat},
    (k, v) ∈ d → dget d k = some v := by
  intro d
  induction d with
  | nil => intro _ k v h; simp at h
  | cons p rest ih =>
    intro hnd k v h
    obtain ⟨k', v'⟩ := p
    rw [List.map_cons, List.nodup_cons] at hnd
    rcases List.mem_cons.1 h with he | h
    · obtain ⟨rfl, rfl⟩ : k' = k ∧ v' = v :=
        ⟨(congrArg Prod.fst he).symm, (congrArg Prod.snd he).symm⟩
      simp [dget]
    · have hk : ¬k' = k := by
        rintro rfl
        exact hnd.1 (List.mem_map.2 ⟨(k', v), h, rfl⟩)
      rw [dget, if_neg hk]
      exact ih hnd.2 h

theorem dget_foldl_bump_nil (ws : List (List Char)) (w : List Char) :
    dget (ws.foldl bump []) w =
      if 0 < ws.count w then some (ws.count w) else none := by
  rw [dget_foldl_bump]
  rfl

/-- Every entry of the frequency dict is the occurrence count of its key in
the processed word stream. -/
theorem counts_entry (ws : List (List Char)) {p : List Char × Nat}
    (hp : p ∈ ws.foldl bump ([] : List (List Char × Nat))) :
    p.2 = ws.count p.1 := by
  obtain ⟨k, v⟩ := p
  have hd := dget_of_mem_nodup (keys_nodup ws) hp
  rw [dget_foldl_bump_nil] at hd
  by_cases hc : 0 < ws.count k
  · rw [if_pos hc] at hd
    exact (Option.some.inj hd).symm
  · rw [if_neg hc] at hd
    cases hd

/-! ## The stable descending sort -/

theorem insert_desc_perm (p : List Char × Nat) (l : List (List Char × Nat)) :
    List.Perm (insert_desc p l) (p :: l) := by
  induction l with
  | nil => exact List.Perm.refl _
  | cons q rest ih =>
    rw [insert_desc]
    by_cases h : q.2 ≤ p.2
    · rw [if_pos h]
    · rw [if_neg h]
      exact (ih.cons q).trans (List.Perm.swap p q rest)

theorem sort_desc_perm (l : List (List Char × Nat)) :
    List.Perm (sort_desc l) l := by
  induction l with
  | nil => exact List.Perm.refl _
  | cons p rest ih =>
    rw [sort_desc]
    exact (insert_desc_perm p (sort_desc rest)).trans (ih.cons p)

theorem insert_desc_sorted {l : List (List Char × Nat)}
    (hl : l.Pairwise (fun a b => b.2 ≤ a.2)) (p : List Char × Nat) :
    (insert_desc p l).Pairwise (fun a b => b.2 ≤ a.2) := by
  induction l with
  | nil => simp [insert_desc]
  | cons q rest ih =>
    obtain ⟨hq, hrest⟩ := List.pairwise_cons.1 hl
    rw [insert_desc]
    by_cases h : q.2 ≤ p.2
    · rw [if_pos h]
      refine List.pairwise_cons.2 ⟨?_, hl⟩
      intro b hb
      rcases List.mem_cons.1 hb with rfl | hb
      · exact h
      · exact le_trans (hq b hb) h
    · rw [if_neg h]
      refine List.pairwise_cons.2 ⟨?_, ih hrest⟩
      intro b hb
      rcases List.mem_cons.1 ((insert_desc_perm p rest).mem_iff.1 hb) with
        rfl | hb
      · omega
      · exact hq b hb

theorem sort_desc_sorted (l : List (List Char × Nat)) :
    (sort_desc l).Pairwise (fun a b => b.2 ≤ a.2) := by
  induction l with
  | nil => simp [sort_desc]
  | cons p rest ih => exact insert_desc_sorted ih p

theorem filter_insert_desc_self (p : List Char × Nat)
    (l : List (List Char × Nat)) (n : Nat) (hp : p.2 = n) :
    (insert_desc p l).filter (fun q => q.2 == n) =
      p :: l.filter (fun q => q.2 == n) := by
  have hpn : (p.2 == n) = true := beq_iff_eq.2 hp
  induction l with
  | nil => simp [insert_desc, hpn]
  | cons q rest ih =>
    rw [insert_desc]
    by_cases h : q.2 ≤ p.2
    · rw [if_pos h]
      simp only [List.filter_cons, hpn, if_true]
    · rw [if_neg h]
      have hq : (q.2 == n) = false := by
        rw [beq_eq_false_iff_ne]
        omega
      simp only [List.filter_cons, hq, Bool.false_eq_true, if_false, ih]

theorem filter_insert_desc_other (p : List Char × Nat)
    (l : List (List Char × Nat)) (n : Nat) (hp : p.2 ≠ n) :
    (insert_desc p l).filter (fun q => q.2 == n) =
      l.filter (fun q => q.2 == n) := by
  have hpn : (p.2 == n) = false := beq_eq_false_iff_ne.2 hp
  induction l with
  | nil => simp [insert_desc, hpn]
  | cons q rest ih =>
    rw [insert_desc]
    by_cases h : q.2 ≤ p.2
    · rw [if_pos h]
      simp only [List.filter_cons, hpn, Bool.false_eq_true, if_false]
    · rw [if_neg h]
      simp only [List.filter_cons, ih]

/-- Stability: the sort does not reorder entries of equal count. -/
theorem filter_sort_desc (l : List (List Char × Nat)) (n : Nat) :
    (sort_desc l).filter (fun q => q.2 == n) =
      l.filter (fun q => q.2 == n) := by
  induction l with
  | nil => rfl
  | cons p rest ih =>
    rw [sort_desc]
    by_cases hp : p.2 = n
    · rw [filter_insert_desc_self p _ n hp, ih]
      simp only [List.filter_cons, beq_iff_eq.2 hp, if_true]
    · rw [filter_insert_desc_other p _ n hp, ih]
      simp only [List.filter_cons, beq_eq_false_iff_ne.2 hp,
        Bool.false_eq_true, if_false]

/-! ## The flattened word stream -/

theorem vocab_counts_eq_foldl (tokenizer : List Char → List (List Char))
    (nd : Bool) (lines : List (List Char)) :
    vocab_counts tokenizer nd lines =
      (all_words tokenizer nd lines).foldl bump [] := by
  rw [vocab_counts, all_words]
  generalize ([] : List (List Char × Nat)) = d0
  induction lines generalizing d0 with
  | nil => rfl
  | cons l lines ih =>
    rw [List.foldl_cons, List.map_cons, List.flatten_cons, List.foldl_append]
    exact ih _

/-- C7.  With no size bound, `create_vocabulary` returns the reserved symbols
followed by exactly the distinct corpus tokens, in count-descending order,
and tokens of equal count keep their first-encounter order: filtering the
produced order to any fixed count `n` agrees with filtering the
first-occurrence order of the corpus word stream. -/
theorem C7_vocabulary_frequency_order (lines : List (List Char))
    (tokenizer : List Char → List (List Char)) (nd : Bool) :
    create_vocabulary lines tokenizer none nd =
      _START_VOCAB ++
        (sort_desc (vocab_counts tokenizer nd lines)).map Prod.fst ∧
    ((sort_desc (vocab_counts tokenizer nd lines)).map Prod.fst).Pairwise
      (fun a b => (all_words tokenizer nd lines).count b ≤
        (all_words tokenizer nd lines).count a) ∧
    (∀ w, w ∈ (sort_desc (vocab_counts tokenizer nd lines)).map Prod.fst ↔
      w ∈ all_words tokenizer nd lines) ∧
    (∀ n : Nat,
      ((sort_desc (vocab_counts tokenizer nd lines)).map Prod.fst).filter
        (fun w => (all_words tokenizer nd lines).count w == n) =
      (dedup_first [] (all_words tokenizer nd lines)).filter
        (fun w => (all_words tokenizer nd lines).count w == n)) := by
  set AW := all_words tokenizer nd lines with hAW
  have hd : vocab_counts tokenizer nd lines = AW.foldl bump [] :=
    vocab_counts_eq_foldl tokenizer nd lines
  set d := vocab_counts tokenizer nd lines with hdd
  have hperm : List.Perm (sort_desc d) d := sort_desc_perm d
  have hent : ∀ p ∈ sort_desc d, p.2 = AW.count p.1 := by
    intro p hp
    exact counts_entry AW (hd ▸ hperm.mem_iff.1 hp)
  have hkeys : d.map Prod.fst = dedup_first [] AW := by
    rw [hd, keys_foldl_bump]
    rfl
  refine ⟨create_vocabulary_none lines tokenizer nd, ?_, ?_, ?_⟩
  · rw [List.pairwise_map]
    refine (sort_desc_sorted d).imp_of_mem ?_
    intro a b ha hb hle
    rw [← hent a ha, ← hent b hb]
    exact hle
  · intro w
    rw [List.mem_map]
    constructor
    · rintro ⟨p, hp, rfl⟩
      have := counts_entry AW (hd ▸ hperm.mem_iff.1 hp)
      have hpd := hperm.mem_iff.1 hp
      have hk : p.1 ∈ d.map Prod.fst := List.mem_map_of_mem Prod.fst hpd
      rw [hkeys] at hk
      exact ((mem_dedup_first AW [] p.1).1 hk).2
    · intro hw
      have hk : w ∈ d.map Prod.fst := by
        rw [hkeys]
        exact (mem_dedup_first AW [] w).2 ⟨by simp, hw⟩
      rw [List.mem_map] at hk
      obtain ⟨p, hp, rfl⟩ := hk
      exact ⟨p, hperm.mem_iff.2 hp, rfl⟩
  · intro n
    have h1 : ((sort_desc d).map Prod.fst).filter
        (fun w => AW.count w == n) =
        ((sort_desc d).filter (fun p => p.2 == n)).map Prod.fst := by
      rw [List.filter_map]
      congr 1
      apply List.filter_congr
      intro p hp
      simp only [Function.comp]
      rw [hent p hp]
    have h2 : (d.map Prod.fst).filter (fun w => AW.count w == n) =
        (d.filter (fun p => p.2 == n)).map Prod.fst := by
      rw [List.filter_map]
      congr 1
      apply List.filter_congr
      intro p hp
      simp only [Function.comp]
      rw [counts_entry AW (hd ▸ hp)]
    rw [h1, filter_sort_desc, ← h2, hkeys]

theorem C4_vocabulary_bound_witness :
    4 ≤ 5 ∧
    ((create_vocabulary ["a b a".toList] space_tokenizer (some 5)
        false).length ≤ 5 ∧
      (create_vocabulary ["a b a".toList] space_tokenizer (some 5)
        false).take 4 = _START_VOCAB) :=
  ⟨by decide, C4_vocabulary_bound ["a b a".toList] space_tokenizer false 5
    (by decide)⟩

end Wsd
